import Mathlib

/-!
Verification of the clean-builds artifact scanner against its specification.

The development shallowly embeds the Rust sources:
  * `rules.rs`   — rule catalog, marker resolution, directory-name matching;
  * `scanner.rs` — the depth-first walk with pruning (`scan`, `try_match`);
  * `filter.rs`  — include/exclude glob filtering built on the `globset` crate;
  * `size.rs`    — recursive directory-size computation.

Filesystem trees are modelled as finite inductive trees of named files and
directories; directories carry a readability flag so that unreadable entries
(the walk's error case) are representable.  Paths are lists of path segments
relative to the scan root.  Symbolic links are outside the model (the code
never follows them), and entries above the scan root are treated as unknown:
the root directory itself is never matched, matching the convention that the
scan root's surroundings are not part of the scanned tree.
-/

namespace CleanBuilds

/-- Marker specification, from `rules.rs` (`MarkerKind`): how to confirm that
an artifact directory belongs to a known build system. -/
inductive MarkerKind where
  | Files (names : List String)
  | GlobSuffix (suffix : String)
  | Always
deriving DecidableEq, Repr

/-- Directory-name matching variant, from `rules.rs` (`DirMatch`). -/
inductive DirMatch where
  | Exact (name : String)
  | Suffix (suffix : String)
deriving DecidableEq, Repr

/-- One catalog entry, from `rules.rs` (`ArtifactRule`). -/
structure ArtifactRule where
  build_system : String
  artifact_dir : String
  marker : MarkerKind
deriving DecidableEq, Repr

/-- A rule together with its directory-name matching strategy, from
`rules.rs` (`MatchableRule`). -/
structure MatchableRule where
  rule : ArtifactRule
  dir_match : DirMatch
deriving DecidableEq, Repr

/-- Shorthand for an exact-match rule with a file-set marker, from `rules.rs`
(`mr`; `mr_multi` in the source is the same function). -/
def mr (build_system artifact_dir : String) (markers : List String) : MatchableRule :=
  { rule := { build_system := build_system, artifact_dir := artifact_dir,
              marker := MarkerKind.Files markers },
    dir_match := DirMatch.Exact artifact_dir }

/-- The full rule catalog in its fixed order, from `rules.rs` (`all_rules`). -/
def all_rules : List MatchableRule :=
  [ mr "Java/Maven" "target" ["pom.xml"],
    mr "Rust/Cargo" "target" ["Cargo.toml"],
    mr "Scala/SBT" "target" ["build.sbt"],
    mr "Node.js" "node_modules" ["package.json"],
    mr "Node.js" ".next" ["package.json"],
    mr "Node.js" ".nuxt" ["package.json"],
    mr "Node.js" ".output" ["package.json"],
    mr "Swift/SPM" ".build" ["Package.swift"],
    { rule := { build_system := "Python", artifact_dir := "__pycache__",
                marker := MarkerKind.Always },
      dir_match := DirMatch.Exact "__pycache__" },
    { rule := { build_system := "Python", artifact_dir := ".mypy_cache",
                marker := MarkerKind.Always },
      dir_match := DirMatch.Exact ".mypy_cache" },
    { rule := { build_system := "Python", artifact_dir := ".pytest_cache",
                marker := MarkerKind.Always },
      dir_match := DirMatch.Exact ".pytest_cache" },
    mr "Python" ".venv" ["pyproject.toml", "setup.py", "requirements.txt"],
    mr "Python" "venv" ["pyproject.toml", "setup.py", "requirements.txt"],
    mr "Python" ".tox" ["pyproject.toml", "setup.py", "requirements.txt"],
    { rule := { build_system := "Python", artifact_dir := "*.egg-info",
                marker := MarkerKind.Files ["pyproject.toml", "setup.py", "requirements.txt"] },
      dir_match := DirMatch.Suffix ".egg-info" },
    mr "Android/Gradle" "build" ["build.gradle", "build.gradle.kts"],
    mr "Android/Gradle" ".gradle" ["build.gradle", "build.gradle.kts"],
    mr "C/C++/CMake" "build" ["CMakeLists.txt"],
    mr "C/C++/CMake" "CMakeFiles" ["CMakeLists.txt"],
    { rule := { build_system := ".NET/C#", artifact_dir := "bin",
                marker := MarkerKind.GlobSuffix ".csproj" },
      dir_match := DirMatch.Exact "bin" },
    { rule := { build_system := ".NET/C#", artifact_dir := "obj",
                marker := MarkerKind.GlobSuffix ".csproj" },
      dir_match := DirMatch.Exact "obj" },
    { rule := { build_system := ".NET/C#", artifact_dir := "bin",
                marker := MarkerKind.GlobSuffix ".sln" },
      dir_match := DirMatch.Exact "bin" },
    { rule := { build_system := ".NET/C#", artifact_dir := "obj",
                marker := MarkerKind.GlobSuffix ".sln" },
      dir_match := DirMatch.Exact "obj" },
    mr "Elixir/Mix" "_build" ["mix.exs"],
    mr "Elixir/Mix" "deps" ["mix.exs"],
    mr "Haskell/Stack" ".stack-work" ["stack.yaml"],
    { rule := { build_system := "Haskell/Cabal", artifact_dir := "dist-newstyle",
                marker := MarkerKind.GlobSuffix ".cabal" },
      dir_match := DirMatch.Exact "dist-newstyle" },
    mr "Dart/Flutter" ".dart_tool" ["pubspec.yaml"],
    mr "Dart/Flutter" "build" ["pubspec.yaml"],
    mr "Zig" "zig-out" ["build.zig"],
    mr "Zig" "zig-cache" ["build.zig"],
    mr "PHP/Composer" "vendor" ["composer.json"],
    mr "CocoaPods" "Pods" ["Podfile"],
    mr "Ruby/Bundler" "bundle" ["Gemfile"] ]

/-- A filesystem tree: a named regular file with a byte size, or a named
directory with a readability flag and its entries.  Unreadable directories
still appear in their parent's listing but their contents cannot be walked. -/
inductive FsTree where
  | file (name : String) (size : Nat)
  | dir (name : String) (readable : Bool) (entries : List FsTree)

/-- The name of a filesystem entry (its last path segment). -/
def FsTree.name : FsTree → String
  | .file n _ => n
  | .dir n _ _ => n

/-- Marker resolution, from `rules.rs` (`has_marker`).  The reference
directory is given by the names of its entries: a `Files` marker asks whether
any listed name exists as an entry (`parent.join(name).exists()` in the
source, which is satisfied by an entry of any kind), and a `GlobSuffix`
marker asks whether any entry name ends with the suffix. -/
def has_marker (entry_names : List String) (marker : MarkerKind) : Bool :=
  match marker with
  | .Always => true
  | .Files names => names.any (fun n => entry_names.any (fun e => e == n))
  | .GlobSuffix suffix => entry_names.any (fun e => suffix.toList.isSuffixOf e.toList)

/-- Directory-name matching, from `rules.rs` (`matches_dir`).  Suffix
matching models `str::ends_with`. -/
def matches_dir (dir_name : String) (dm : DirMatch) : Bool :=
  match dm with
  | .Exact name => dir_name == name
  | .Suffix suffix => suffix.toList.isSuffixOf dir_name.toList

/-- Whether a rule needs no confirmation marker. -/
def MarkerKind.isAlways : MarkerKind → Bool
  | .Always => true
  | _ => false

/-- Two directory-name patterns that no single name can satisfy at once.
Suffix/suffix pairs are conservatively reported as overlapping. -/
def dir_match_disjoint : DirMatch → DirMatch → Bool
  | .Exact a, .Exact b => !(a == b)
  | .Exact a, .Suffix s => !(s.toList.isSuffixOf a.toList)
  | .Suffix s, .Exact b => !(s.toList.isSuffixOf b.toList)
  | .Suffix _, .Suffix _ => false

/-- Glob token, modelling the `globset` crate's compiled tokens with its
default options (as used by `filter.rs`): `?` and `*` may match any
character, including the path separator; `**` as a whole path component is a
recursive wildcard whose meaning depends on its position.  Character classes,
alternations and escapes are outside the modelled fragment. -/
inductive GTok where
  | lit (c : Char)
  | qmark
  | star
  | recStart
  | recMid
  | recEnd
  | seek
deriving DecidableEq, Repr

/-- Termination weight for glob matching: expanding `recStart` into `seek`
must shrink the measure. -/
def GTok.weight : GTok → Nat
  | .recStart => 2
  | _ => 1

/-- Total weight of a token list. -/
def toksWeight (ts : List GTok) : Nat := (ts.map GTok.weight).sum

/-- Glob matching over a path rendered as characters, following the regexes
the `globset` crate compiles its tokens to: `lit` is one literal character,
`qmark` any one character, `star` any character sequence, `recStart` the
empty prefix or any prefix ending in `/` (leading `**/`), `recMid` a `/` or
a `/…/` segment run (inner `/**/`), `recEnd` a `/` followed by anything
(trailing `/**`), and `seek` is the auxiliary "nonempty prefix ending in
`/`" used to express the recursive tokens. -/
def gmatch : List GTok → List Char → Bool
  | [], cs => cs.isEmpty
  | .lit c :: ts, cs =>
    match cs with
    | [] => false
    | d :: ds => c == d && gmatch ts ds
  | .qmark :: ts, cs =>
    match cs with
    | [] => false
    | _ :: ds => gmatch ts ds
  | .star :: ts, cs =>
    gmatch ts cs ||
      match cs with
      | [] => false
      | _ :: ds => gmatch (.star :: ts) ds
  | .recStart :: ts, cs => gmatch ts cs || gmatch (.seek :: ts) cs
  | .seek :: ts, cs =>
    match cs with
    | [] => false
    | d :: ds => (d == '/' && gmatch ts ds) || gmatch (.seek :: ts) ds
  | .recMid :: ts, cs =>
    match cs with
    | [] => false
    | d :: ds => d == '/' && (gmatch ts ds || gmatch (.seek :: ts) ds)
  | .recEnd :: ts, cs =>
    match cs with
    | [] => false
    | d :: ds => d == '/' && gmatch (.star :: ts) ds
termination_by ts cs => (cs.length, toksWeight ts)
decreasing_by all_goals simp [toksWeight, GTok.weight, Prod.lex_iff]

/-- Split a character list on a separator, modelling how a glob pattern is
divided into path components. -/
def splitSep (sep : Char) : List Char → List (List Char)
  | [] => [[]]
  | c :: cs =>
    if c == sep then [] :: splitSep sep cs
    else
      match splitSep sep cs with
      | [] => [[c]]
      | g :: gs => (c :: g) :: gs

/-- Tokens of one non-recursive glob component: `*` and `?` become wildcards,
everything else is literal. -/
def compToks (cs : List Char) : List GTok :=
  cs.map (fun c => if c == '*' then GTok.star else if c == '?' then GTok.qmark else GTok.lit c)

/-- Whether a component is the recursive wildcard `**`. -/
def isRecComp (cs : List Char) : Bool := cs == ['*', '*']

mutual

/-- Assemble glob components into tokens when no separator is pending (at the
start of the pattern, or right after a recursive component that absorbed the
separator). -/
def tokTail : List (List Char) → List GTok
  | [] => []
  | [c] => if isRecComp c then [GTok.star] else compToks c
  | c :: rest =>
    if isRecComp c then GTok.recStart :: tokTail rest
    else compToks c ++ tokTailSep rest

/-- Assemble glob components into tokens when a separator is pending before
the next component. -/
def tokTailSep : List (List Char) → List GTok
  | [] => []
  | [c] => if isRecComp c then [GTok.recEnd] else GTok.lit '/' :: compToks c
  | c :: rest =>
    if isRecComp c then GTok.recMid :: tokTail rest
    else GTok.lit '/' :: (compToks c ++ tokTailSep rest)

end

/-- Compile one glob pattern string to tokens: split on `/` and assemble,
mirroring the `globset` parser on the modelled fragment. -/
def tokenize (pat : String) : List GTok := tokTail (splitSep '/' pat.toList)

/-- Auto-enhancement of a bare pattern, from `build_glob_set` in `filter.rs`:
a pattern without `/` becomes the two globs `**/PATTERN` and `**/PATTERN/**`;
a pattern containing `/` is used as-is. -/
def enhance_pattern (pat : String) : List String :=
  if pat.toList.contains '/' then [pat]
  else ["**/" ++ pat, "**/" ++ pat ++ "/**"]

/-- Compile a pattern list into a glob set, from `build_glob_set` in
`filter.rs`.  Pattern-compilation errors cannot arise on the modelled
fragment, so the result is total. -/
def build_glob_set (patterns : List String) : List (List GTok) :=
  (patterns.flatMap enhance_pattern).map tokenize

/-- Render a relative path (list of segments) as the character string the
glob set is matched against, with `/` separators. -/
def joinPath (segs : List String) : List Char :=
  match segs with
  | [] => []
  | s :: rest => s.toList ++ rest.flatMap (fun t => '/' :: t.toList)

/-- Whether any glob in the set matches the path, modelling
`GlobSet::is_match`. -/
def glob_set_match (globs : List (List GTok)) (path : List String) : Bool :=
  globs.any (fun g => gmatch g (joinPath path))

/-- A detected build artifact, from `scanner.rs` (`Artifact`).  Its path is
relative to the scan root, as a list of segments. -/
structure Artifact where
  path : List String
  build_system : String
  artifact_dir : String
  size_bytes : Nat
deriving DecidableEq, Repr

/-- Include/exclude filter, from `filter.rs` (`ArtifactFilter`). -/
structure ArtifactFilter where
  includes : Option (List (List GTok))
  excludes : List (List GTok)

/-- Filter construction, from `ArtifactFilter::new`: an empty include list
means "no include restriction". -/
def ArtifactFilter.new (include_patterns exclude_patterns : List String) : ArtifactFilter :=
  { includes :=
      if include_patterns.isEmpty then none else some (build_glob_set include_patterns),
    excludes := build_glob_set exclude_patterns }

/-- Single-path filter test, from `ArtifactFilter::matches`: excludes are
checked first and dominate; with no includes everything else passes. -/
def ArtifactFilter.matches (f : ArtifactFilter) (relative_path : List String) : Bool :=
  if glob_set_match f.excludes relative_path then false
  else
    match f.includes with
    | none => true
    | some inc => glob_set_match inc relative_path

/-- Path made relative to the scan root, modelling
`path.strip_prefix(root).unwrap_or(&path)`. -/
def relativeTo (root p : List String) : List String :=
  if root.isPrefixOf p then p.drop root.length else p

/-- Filtering pass over the artifact list, from `ArtifactFilter::apply`. -/
def ArtifactFilter.apply (f : ArtifactFilter) (root : List String)
    (artifacts : List Artifact) : List Artifact :=
  artifacts.filter (fun a => f.matches (relativeTo root a.path))

/-- One directory entry as seen by the walk, packaging the context that
`try_match` in `scanner.rs` reads from the filesystem: the entry's relative
path, kind and name, the parent directory's name and entry names, and the
grandparent directory's entry names.  For entries directly under the scan
root the parent is the root itself (whose entry names are known) and the
grandparent lies outside the scanned tree, so it is recorded as unknown. -/
structure WEntry where
  path : List String
  is_dir : Bool
  dir_name : String
  parent_name : Option String
  parent_names : List String
  grand_names : Option (List String)
deriving DecidableEq, Repr

/-- Rule resolution for one candidate directory, from `try_match` in
`scanner.rs`: iterate the catalog in order; on a name match, the
Ruby/Bundler rule requires the parent to be named `vendor` and checks the
marker in the grandparent (an absent grandparent aborts the whole search,
mirroring the `?` operator in the source), every other rule checks the
marker in the parent; the first rule whose check succeeds produces the
artifact. -/
def try_match (e : WEntry) (rules : List MatchableRule) : Option Artifact :=
  match rules with
  | [] => none
  | mrule :: rest =>
    if matches_dir e.dir_name mrule.dir_match then
      if mrule.rule.build_system == "Ruby/Bundler" then
        if e.parent_name == some "vendor" then
          match e.grand_names with
          | none => none
          | some g =>
            if has_marker g mrule.rule.marker then
              some { path := e.path, build_system := mrule.rule.build_system,
                     artifact_dir := mrule.rule.artifact_dir, size_bytes := 0 }
            else try_match e rest
        else try_match e rest
      else
        if has_marker e.parent_names mrule.rule.marker then
          some { path := e.path, build_system := mrule.rule.build_system,
                 artifact_dir := mrule.rule.artifact_dir, size_bytes := 0 }
        else try_match e rest
    else try_match e rest

mutual

/-- Depth-first pre-order entry stream of one subtree, modelling the
`walkdir` iteration in `scan`: a directory yields its own entry before its
contents, `.git` directories are removed from the stream entirely
(`filter_entry`), and an unreadable directory yields its entry followed by
an error item (`none`) in place of its contents. -/
def walkTree (pp : List String) (pn : Option String) (pns : List String)
    (gns : Option (List String)) : FsTree → List (Option WEntry)
  | .file n _ =>
    [some { path := pp ++ [n], is_dir := false, dir_name := n,
            parent_name := pn, parent_names := pns, grand_names := gns }]
  | .dir n readable es =>
    if n == ".git" then []
    else
      some { path := pp ++ [n], is_dir := true, dir_name := n,
             parent_name := pn, parent_names := pns, grand_names := gns } ::
        (if readable then
          walkList (pp ++ [n]) (some n) (es.map FsTree.name) (some pns) es
        else [none])

/-- Entry stream of a directory's contents in order. -/
def walkList (pp : List String) (pn : Option String) (pns : List String)
    (gns : Option (List String)) : List FsTree → List (Option WEntry)
  | [] => []
  | t :: ts => walkTree pp pn pns gns t ++ walkList pp pn pns gns ts

end

/-- The scanning loop over the entry stream, from the `for entry in walker`
loop in `scan`: error items are skipped, non-directories are skipped,
entries under an already recorded artifact path are skipped (pruning), and
a successful `try_match` records the artifact and its path. -/
def scanLoop (rules : List MatchableRule) :
    List (Option WEntry) → List (List String) → List Artifact → List Artifact
  | [], _, acc => acc
  | none :: rest, pruned, acc => scanLoop rules rest pruned acc
  | some e :: rest, pruned, acc =>
    if !e.is_dir then scanLoop rules rest pruned acc
    else if pruned.any (fun p => p.isPrefixOf e.path) then scanLoop rules rest pruned acc
    else
      match try_match e rules with
      | some a => scanLoop rules rest (pruned ++ [e.path]) (acc ++ [a])
      | none => scanLoop rules rest pruned acc

/-- Scan a tree for build artifacts, from `scan` in `scanner.rs`.  The scan
root is given by its list of entries; reported paths are relative to it. -/
def scan (roots : List FsTree) : List Artifact :=
  scanLoop all_rules (walkList [] none (roots.map FsTree.name) none roots) [] []

/-- Well-formed sibling name list: no two entries of one directory share a
name (true of every real filesystem directory). -/
def nodupNames : List String → Bool
  | [] => true
  | n :: rest => !(rest.contains n) && nodupNames rest

mutual

/-- Well-formed tree: sibling names are distinct at every level. -/
def wfTree : FsTree → Bool
  | .file _ _ => true
  | .dir _ _ es => nodupNames (es.map FsTree.name) && wfForest es

/-- Well-formed list of trees. -/
def wfForest : List FsTree → Bool
  | [] => true
  | t :: ts => wfTree t && wfForest ts

end

/-- Well-formed scan root: distinct top-level names, all subtrees
well-formed. -/
def wfRoots (roots : List FsTree) : Bool :=
  nodupNames (roots.map FsTree.name) && wfForest roots

mutual

/-- Total byte size of a subtree, from `dir_size` in `size.rs`: the sum of
the sizes of all regular files reachable through readable directories;
the contents of an unreadable directory contribute nothing (its read error
is filtered out by `.ok()`). -/
def treeSize : FsTree → Nat
  | .file _ sz => sz
  | .dir _ readable es => if readable then forestSize es else 0

/-- Total byte size of a list of subtrees. -/
def forestSize : List FsTree → Nat
  | [] => 0
  | t :: ts => treeSize t + forestSize ts

end

/-- Look up a directory entry by name, modelling a single path-component
step of filesystem traversal. -/
def findEntry (es : List FsTree) (n : String) : Option FsTree :=
  es.find? (fun e => FsTree.name e == n)

/-- Resolve a relative path to the subtree it denotes, if any. -/
def resolve (es : List FsTree) : List String → Option FsTree
  | [] => none
  | [n] => findEntry es n
  | n :: rest =>
    match findEntry es n with
    | some (.dir _ _ cs) => resolve cs rest
    | _ => none

/-- Size of the subtree at a path, from `dir_size` in `size.rs`: a path that
cannot be walked at all yields zero rather than an error. -/
def dir_size (roots : List FsTree) (p : List String) : Nat :=
  match resolve roots p with
  | some t => treeSize t
  | none => 0

/-- Populate every artifact's size field, from `compute_sizes` in `size.rs`.
The per-artifact computations are independent, so the parallel fan-out of
the source is modelled as a map. -/
def compute_sizes (roots : List FsTree) (artifacts : List Artifact) : List Artifact :=
  artifacts.map (fun a => { a with size_bytes := dir_size roots a.path })

/-- The scan → filter → size pipeline over a tree, as wired in `main.rs`. -/
def pipeline (roots : List FsTree) (include_patterns exclude_patterns : List String) :
    List Artifact :=
  compute_sizes roots
    ((ArtifactFilter.new include_patterns exclude_patterns).apply [] (scan roots))

mutual

/-- A tree with the contents of every unreadable directory discarded: what
the walk can actually observe. -/
def pruneUnreadable : FsTree → FsTree
  | .file n sz => .file n sz
  | .dir n readable es => .dir n readable (if readable then pruneForest es else [])

/-- Pointwise `pruneUnreadable`. -/
def pruneForest : List FsTree → List FsTree
  | [] => []
  | t :: ts => pruneUnreadable t :: pruneForest ts

end

/-- A rule's marker condition evaluated in the reference directory the
scanner actually consults: the grandparent for the Ruby/Bundler vendoring
exception (which additionally requires the parent to be named `vendor`),
the parent for every other rule. -/
def markerOk (e : WEntry) (mrule : MatchableRule) : Bool :=
  if mrule.rule.build_system == "Ruby/Bundler" then
    e.parent_name == some "vendor" &&
      (match e.grand_names with
       | some g => has_marker g mrule.rule.marker
       | none => false)
  else has_marker e.parent_names mrule.rule.marker

/-- A rule fully accepts a candidate: its directory-name pattern matches and
its marker condition holds in the correct reference directory. -/
def accepts (e : WEntry) (mrule : MatchableRule) : Bool :=
  matches_dir e.dir_name mrule.dir_match && markerOk e mrule

/-- Stream-order invariant of a depth-first pre-order walk: a later entry's
path is never a (possibly improper) prefix of an earlier entry's path. -/
def entryNoLaterAncestor (x y : Option WEntry) : Prop :=
  ∀ ex ey, x = some ex → y = some ey → ¬ ey.path <+: ex.path

/-- Two paths neither of which is an ancestor of (or equal to) the other. -/
def pathsIncomparable (p q : List String) : Prop :=
  ¬ p <+: q ∧ ¬ q <+: p

/-- Pattern characters inside the modelled glob fragment: no character
classes, alternations or escapes. -/
def simpleChars (cs : List Char) : Bool :=
  cs.all (fun c => !(c == '[' || c == ']' || c == '{' || c == '}' || c == '\\'))

/-- Example tree: a Rust/Cargo project whose `target` directory holds one
11-byte file. -/
def exampleCargoRoots : List FsTree :=
  [FsTree.dir "proj" true
    [FsTree.file "Cargo.toml" 0, FsTree.dir "target" true [FsTree.file "out.bin" 11]]]

/-- Example tree: a Ruby project with `vendor/bundle` and a `Gemfile`. -/
def exampleRubyRoots : List FsTree :=
  [FsTree.dir "proj" true
    [FsTree.file "Gemfile" 0, FsTree.dir "vendor" true [FsTree.dir "bundle" true []]]]

/-- Example tree: the same layout without the `Gemfile`. -/
def exampleRubyRootsNoGemfile : List FsTree :=
  [FsTree.dir "proj" true [FsTree.dir "vendor" true [FsTree.dir "bundle" true []]]]

/-- Example tree with two independent projects, a Rust one and a Node one. -/
def exampleTwoProjectRoots : List FsTree :=
  [FsTree.dir "rust-proj" true
    [FsTree.file "Cargo.toml" 0, FsTree.dir "target" true [FsTree.file "a.o" 3]],
   FsTree.dir "node-proj" true
    [FsTree.file "package.json" 0, FsTree.dir "node_modules" true []]]

/-- Example candidate: a directory named `target` whose parent contains both
`pom.xml` and `Cargo.toml`. -/
def exampleMavenCargoEntry : WEntry :=
  { path := ["proj", "target"], is_dir := true, dir_name := "target",
    parent_name := some "proj",
    parent_names := ["pom.xml", "Cargo.toml", "target"], grand_names := none }

/-- Example candidate: a `bundle` directory under `vendor` with a `Gemfile`
two levels up. -/
def exampleBundleEntry : WEntry :=
  { path := ["proj", "vendor", "bundle"], is_dir := true, dir_name := "bundle",
    parent_name := some "vendor",
    parent_names := ["bundle"], grand_names := some ["Gemfile", "vendor"] }

/-- Example artifact used to exercise the filter laws. -/
def exampleFilterArtifact : Artifact :=
  { path := ["app", "target"], build_system := "Test", artifact_dir := "target",
    size_bytes := 0 }

/-- The artifact the scan reports on `exampleCargoRoots` (size not yet
computed). -/
def exampleCargoArtifact : Artifact :=
  { path := ["proj", "target"], build_system := "Rust/Cargo", artifact_dir := "target",
    size_bytes := 0 }

theorem dir_match_disjoint_spec (d₁ d₂ : DirMatch) (h : dir_match_disjoint d₁ d₂ = true)
    (s : String) (h₁ : matches_dir s d₁ = true) : matches_dir s d₂ = false := by
  cases d₁ with
  | Exact a =>
    have hs : s = a := by simpa [matches_dir] using h₁
    subst hs
    cases d₂ with
    | Exact b =>
      simp only [dir_match_disjoint, Bool.not_eq_true'] at h
      simpa [matches_dir] using h
    | Suffix t =>
      simp only [dir_match_disjoint, Bool.not_eq_true'] at h
      simpa [matches_dir] using h
  | Suffix t =>
    cases d₂ with
    | Exact b =>
      simp only [dir_match_disjoint, Bool.not_eq_true'] at h
      simp only [matches_dir] at h₁ ⊢
      simp only [beq_eq_false_iff_ne, ne_eq]
      rintro rfl
      rw [h₁] at h
      cases h
    | Suffix u => simp [dir_match_disjoint] at h

/-- C5 (counterexample): the catalog is not ordered with every marker-bearing
rule ahead of every marker-less rule.  The rule at index 8 (`__pycache__`)
is marker-less while the later rule at index 11 (`.venv`) bears a marker, so
the claimed ordering invariant fails at the concrete index pair (8, 11). -/
theorem rules_order_counterexample :
    (8 : Nat) < 11 ∧
    (all_rules.map (fun r => r.rule.marker.isAlways))[8]? = some true ∧
    (all_rules.map (fun r => r.rule.marker.isAlways))[11]? = some false := by
  refine ⟨by decide, ?_, ?_⟩ <;> rfl

/-- C5 (amended): although the marker-less rules are not all placed after
the marker-bearing rules, the relative order never matters: no directory
name matched by an earlier marker-less rule is also matched by a later
marker-bearing rule, so a catch-all rule can never swallow a name that a
more specific rule would classify. -/
theorem always_rules_never_shadow (i j : Fin all_rules.length) (hij : i < j)
    (hi : (all_rules.get i).rule.marker.isAlways = true)
    (hj : (all_rules.get j).rule.marker.isAlways = false)
    (s : String) (hs : matches_dir s (all_rules.get i).dir_match = true) :
    matches_dir s (all_rules.get j).dir_match = false := by
  have key : ∀ i j : Fin all_rules.length, i < j →
      (all_rules.get i).rule.marker.isAlways = true →
      (all_rules.get j).rule.marker.isAlways = false →
      dir_match_disjoint (all_rules.get i).dir_match (all_rules.get j).dir_match = true := by
    decide
  exact dir_match_disjoint_spec _ _ (key i j hij hi hj) s hs

theorem always_rules_never_shadow_witness :
    matches_dir "__pycache__" (all_rules.get ⟨11, by decide⟩).dir_match = false :=
  always_rules_never_shadow ⟨8, by decide⟩ ⟨11, by decide⟩ (by decide) (by decide) (by decide)
    "__pycache__" (by decide)

/-- C10: a `Files` marker is confirmed exactly when some name in its marker
set occurs as an entry of the reference directory, of any kind — in
particular a subdirectory named `Cargo.toml` confirms the marker just as
the file would, since the source tests bare existence
(`parent.join(name).exists()`). -/
theorem files_marker_ignores_entry_kind :
    (∀ (parent : List FsTree) (names : List String),
      has_marker (parent.map FsTree.name) (MarkerKind.Files names) = true ↔
        ∃ n ∈ names, ∃ e ∈ parent, FsTree.name e = n) ∧
    has_marker ([FsTree.dir "Cargo.toml" true []].map FsTree.name)
      (MarkerKind.Files ["Cargo.toml"]) = true := by
  constructor
  · intro parent names
    simp [has_marker, List.any_eq_true, List.mem_map, beq_iff_eq]
  · rfl

theorem files_marker_ignores_entry_kind_witness :
    ∃ n ∈ ["Cargo.toml"], ∃ e ∈ [FsTree.dir "Cargo.toml" true []], FsTree.name e = n :=
  (files_marker_ignores_entry_kind.1 [FsTree.dir "Cargo.toml" true []] ["Cargo.toml"]).mp
    files_marker_ignores_entry_kind.2

/-- C8: on a tree with `proj/Cargo.toml` and `proj/target/out.bin` of 11
bytes, the scan → filter (no patterns) → size pipeline yields exactly one
artifact, labelled `Rust/Cargo`, rooted at the `target` directory, with
computed size 11. -/
theorem cargo_target_pipeline_example :
    pipeline exampleCargoRoots [] [] =
      [{ path := ["proj", "target"], build_system := "Rust/Cargo",
         artifact_dir := "target", size_bytes := 11 }] := by
  rfl

theorem try_match_first (e : WEntry) :
    ∀ (rules : List MatchableRule) (a : Artifact), try_match e rules = some a →
    ∃ l₁ mrule l₂, rules = l₁ ++ mrule :: l₂ ∧ accepts e mrule = true ∧
      (∀ mr' ∈ l₁, accepts e mr' = false) ∧
      a = { path := e.path, build_system := mrule.rule.build_system,
            artifact_dir := mrule.rule.artifact_dir, size_bytes := 0 } := by
  intro rules
  induction rules with
  | nil => intro a h; simp [try_match] at h
  | cons mrule rest ih =>
    intro a h
    have hstep : (accepts e mrule = true ∧
        a = { path := e.path, build_system := mrule.rule.build_system,
              artifact_dir := mrule.rule.artifact_dir, size_bytes := 0 }) ∨
        (accepts e mrule = false ∧ try_match e rest = some a) := by
      by_cases hd : matches_dir e.dir_name mrule.dir_match = true
      · by_cases hb : (mrule.rule.build_system == "Ruby/Bundler") = true
        · by_cases hv : (e.parent_name == some "vendor") = true
          · cases hg : e.grand_names with
            | none => simp [try_match, hd, hb, hv, hg] at h
            | some g =>
              by_cases hm : has_marker g mrule.rule.marker = true
              · left
                simp [try_match, hd, hb, hv, hg, hm] at h
                exact ⟨by simp [accepts, markerOk, hd, hb, hv, hg, hm], h.symm⟩
              · right
                simp [try_match, hd, hb, hv, hg, hm] at h
                exact ⟨by simp [accepts, markerOk, hd, hb, hv, hg, hm], h⟩
          · right
            simp [try_match, hd, hb, hv] at h
            exact ⟨by simp [accepts, markerOk, hd, hb, hv], h⟩
        · by_cases hm : has_marker e.parent_names mrule.rule.marker = true
          · left
            simp [try_match, hd, hb, hm] at h
            exact ⟨by simp [accepts, markerOk, hd, hb, hm], h.symm⟩
          · right
            simp [try_match, hd, hb, hm] at h
            exact ⟨by simp [accepts, markerOk, hd, hb, hm], h⟩
      · right
        simp [try_match, hd] at h
        exact ⟨by simp [accepts, hd], h⟩
    rcases hstep with ⟨hacc, rfl⟩ | ⟨hrej, hrest⟩
    · exact ⟨[], mrule, rest, rfl, hacc, by simp, rfl⟩
    · obtain ⟨l₁, m, l₂, hr, hacc, hall, ha⟩ := ih a hrest
      refine ⟨mrule :: l₁, m, l₂, by rw [hr, List.cons_append], hacc, ?_, ha⟩
      intro mr' hmr'
      rcases List.mem_cons.mp hmr' with h' | hmem
      · subst h'; exact hrej
      · exact hall mr' hmem

theorem try_match_accepts (e : WEntry) (rules : List MatchableRule) (a : Artifact)
    (h : try_match e rules = some a) :
    ∃ mrule ∈ rules, accepts e mrule = true ∧
      a.build_system = mrule.rule.build_system ∧
      a.artifact_dir = mrule.rule.artifact_dir ∧ a.path = e.path := by
  obtain ⟨l₁, m, l₂, hr, hacc, _, rfl⟩ := try_match_first e rules a h
  exact ⟨m, by simp [hr], hacc, rfl, rfl, rfl⟩

theorem try_match_ruby_vendor (e : WEntry) (rules : List MatchableRule) (a : Artifact)
    (h : try_match e rules = some a) (hbs : a.build_system = "Ruby/Bundler") :
    e.parent_name = some "vendor" := by
  obtain ⟨l₁, m, l₂, _, hacc, _, rfl⟩ := try_match_first e rules a h
  simp only [Artifact.build_system] at hbs
  have hb : (m.rule.build_system == "Ruby/Bundler") = true := by
    simp [hbs]
  have hmk : markerOk e m = true := by
    rw [accepts, Bool.and_eq_true] at hacc
    exact hacc.2
  rw [markerOk, if_pos hb, Bool.and_eq_true] at hmk
  simpa using hmk.1

/-- C4: whenever `try_match` reports an artifact, its label is that of the
first rule in the catalog's fixed order whose name pattern matches and
whose marker condition holds (every earlier rule was rejected); in
particular a `target` directory whose parent holds both `pom.xml` and
`Cargo.toml` is labelled `Java/Maven`, the earlier of the two candidate
rules. -/
theorem first_matching_rule_determines_label :
    (∀ (e : WEntry) (a : Artifact), try_match e all_rules = some a →
      ∃ l₁ mrule l₂, all_rules = l₁ ++ mrule :: l₂ ∧ accepts e mrule = true ∧
        (∀ mr' ∈ l₁, accepts e mr' = false) ∧
        a.build_system = mrule.rule.build_system) ∧
    try_match exampleMavenCargoEntry all_rules =
      some { path := ["proj", "target"], build_system := "Java/Maven",
             artifact_dir := "target", size_bytes := 0 } := by
  constructor
  · intro e a h
    obtain ⟨l₁, m, l₂, hr, hacc, hall, rfl⟩ := try_match_first e all_rules a h
    exact ⟨l₁, m, l₂, hr, hacc, hall, rfl⟩
  · rfl

theorem first_matching_rule_determines_label_witness :
    ∃ l₁ mrule l₂, all_rules = l₁ ++ mrule :: l₂ ∧
      accepts exampleMavenCargoEntry mrule = true ∧
      (∀ mr' ∈ l₁, accepts exampleMavenCargoEntry mr' = false) ∧
      ("Java/Maven" : String) = mrule.rule.build_system :=
  first_matching_rule_determines_label.1 exampleMavenCargoEntry
    { path := ["proj", "target"], build_system := "Java/Maven",
      artifact_dir := "target", size_bytes := 0 } (by rfl)

/-- C6: a tree with `proj/vendor/bundle` and a `Gemfile` in `proj` yields
exactly the artifact rooted at `vendor/bundle` labelled `Ruby/Bundler`; the
same layout without the `Gemfile` yields nothing; and no `try_match` result
is ever labelled `Ruby/Bundler` unless the candidate's parent directory is
named `vendor`. -/
theorem ruby_bundler_vendoring_rule :
    scan exampleRubyRoots =
      [{ path := ["proj", "vendor", "bundle"], build_system := "Ruby/Bundler",
         artifact_dir := "bundle", size_bytes := 0 }] ∧
    scan exampleRubyRootsNoGemfile = [] ∧
    ∀ (e : WEntry) (rules : List MatchableRule) (a : Artifact),
      try_match e rules = some a → a.build_system = "Ruby/Bundler" →
      e.parent_name = some "vendor" := by
  refine ⟨rfl, rfl, ?_⟩
  intro e rules a h hbs
  exact try_match_ruby_vendor e rules a h hbs

theorem ruby_bundler_vendoring_rule_witness :
    exampleBundleEntry.parent_name = some "vendor" :=
  ruby_bundler_vendoring_rule.2.2 exampleBundleEntry all_rules
    { path := ["proj", "vendor", "bundle"], build_system := "Ruby/Bundler",
      artifact_dir := "bundle", size_bytes := 0 } (by rfl) (by rfl)

/-- C3: exclude patterns dominate — a surviving artifact never matches the
exclude set; with no include patterns every non-excluded artifact survives;
with include patterns every surviving artifact matches some include glob. -/
theorem filter_exclude_dominates (include_patterns exclude_patterns : List String)
    (root : List String) (artifacts : List Artifact) :
    (∀ a ∈ (ArtifactFilter.new include_patterns exclude_patterns).apply root artifacts,
      glob_set_match (build_glob_set exclude_patterns) (relativeTo root a.path) = false) ∧
    (include_patterns = [] → ∀ a ∈ artifacts,
      glob_set_match (build_glob_set exclude_patterns) (relativeTo root a.path) = false →
      a ∈ (ArtifactFilter.new include_patterns exclude_patterns).apply root artifacts) ∧
    (include_patterns ≠ [] →
      ∀ a ∈ (ArtifactFilter.new include_patterns exclude_patterns).apply root artifacts,
      glob_set_match (build_glob_set include_patterns) (relativeTo root a.path) = true) := by
  refine ⟨?_, ?_, ?_⟩
  · intro a ha
    rw [ArtifactFilter.apply, List.mem_filter] at ha
    have hm := ha.2
    rw [ArtifactFilter.matches] at hm
    by_contra hex
    rw [Bool.not_eq_false] at hex
    have hexc : glob_set_match (ArtifactFilter.new include_patterns exclude_patterns).excludes
        (relativeTo root a.path) = true := hex
    rw [if_pos hexc] at hm
    cases hm
  · rintro rfl a ha hex
    rw [ArtifactFilter.apply, List.mem_filter]
    refine ⟨ha, ?_⟩
    rw [ArtifactFilter.matches]
    have hexc : glob_set_match (ArtifactFilter.new [] exclude_patterns).excludes
        (relativeTo root a.path) = false := hex
    rw [if_neg (by simp [hexc])]
    rfl
  · intro hinc a ha
    rw [ArtifactFilter.apply, List.mem_filter] at ha
    have hm := ha.2
    rw [ArtifactFilter.matches] at hm
    have hincs : (ArtifactFilter.new include_patterns exclude_patterns).includes =
        some (build_glob_set include_patterns) := by
      rw [ArtifactFilter.new]
      simp [List.isEmpty_iff, hinc]
    cases hex : glob_set_match (ArtifactFilter.new include_patterns exclude_patterns).excludes
        (relativeTo root a.path) with
    | true => rw [if_pos hex] at hm; cases hm
    | false =>
      rw [if_neg (by simp [hex]), hincs] at hm
      exact hm

theorem filter_exclude_dominates_witness :
    exampleFilterArtifact ∈
      (ArtifactFilter.new [] ["node_modules"]).apply [] [exampleFilterArtifact] :=
  (filter_exclude_dominates [] ["node_modules"] [] [exampleFilterArtifact]).2.1 rfl
    exampleFilterArtifact (by simp)
    (by simp [glob_set_match, build_glob_set, enhance_pattern, tokenize, splitSep, tokTail,
      tokTailSep, compToks, isRecComp, joinPath, gmatch, relativeTo, exampleFilterArtifact])

theorem scanLoop_mem (rules : List MatchableRule) :
    ∀ (items : List (Option WEntry)) (pruned : List (List String)) (acc : List Artifact)
      (a : Artifact), a ∈ scanLoop rules items pruned acc →
      a ∈ acc ∨ ∃ e, some e ∈ items ∧ e.is_dir = true ∧ try_match e rules = some a := by
  intro items
  induction items with
  | nil =>
    intro pruned acc a ha
    rw [scanLoop] at ha
    exact Or.inl ha
  | cons it rest ih =>
    intro pruned acc a ha
    match it with
    | none =>
      rw [scanLoop] at ha
      rcases ih _ _ _ ha with h | ⟨e, he, hd, hm⟩
      · exact Or.inl h
      · exact Or.inr ⟨e, List.mem_cons_of_mem _ he, hd, hm⟩
    | some e0 =>
      rw [scanLoop] at ha
      cases hd0 : e0.is_dir with
      | false =>
        rw [hd0] at ha
        simp only [Bool.not_false, if_true] at ha
        rcases ih _ _ _ ha with h | ⟨e, he, hd, hm⟩
        · exact Or.inl h
        · exact Or.inr ⟨e, List.mem_cons_of_mem _ he, hd, hm⟩
      | true =>
        rw [hd0] at ha
        simp only [Bool.not_true, if_false] at ha
        by_cases hpr : (pruned.any fun p => p.isPrefixOf e0.path) = true
        · rw [if_pos hpr] at ha
          rcases ih _ _ _ ha with h | ⟨e, he, hd, hm⟩
          · exact Or.inl h
          · exact Or.inr ⟨e, List.mem_cons_of_mem _ he, hd, hm⟩
        · rw [if_neg hpr] at ha
          cases htm : try_match e0 rules with
          | some a' =>
            rw [htm] at ha
            rcases ih _ _ _ ha with hacc | ⟨e, he, hd, hm⟩
            · rcases List.mem_append.mp hacc with h | h
              · exact Or.inl h
              · have haa : a = a' := by simpa using h
                subst haa
                exact Or.inr ⟨e0, List.mem_cons_self _ _, hd0, htm⟩
            · exact Or.inr ⟨e, List.mem_cons_of_mem _ he, hd, hm⟩
          | none =>
            rw [htm] at ha
            rcases ih _ _ _ ha with h | ⟨e, he, hd, hm⟩
            · exact Or.inl h
            · exact Or.inr ⟨e, List.mem_cons_of_mem _ he, hd, hm⟩

/-- C2: every artifact the scan reports arises from a walk entry whose
directory name matches some catalog rule whose marker condition holds in
the correct reference directory (the grandparent for the Ruby/Bundler
vendoring exception, the parent otherwise); a name-pattern match without
the required marker is never reported, and only `Always` rules can succeed
with no marker present. -/
theorem scan_requires_marker (roots : List FsTree) (a : Artifact) (ha : a ∈ scan roots) :
    ∃ e : WEntry, some e ∈ walkList [] none (roots.map FsTree.name) none roots ∧
      e.is_dir = true ∧ e.path = a.path ∧
      ∃ mrule ∈ all_rules, a.build_system = mrule.rule.build_system ∧
        matches_dir e.dir_name mrule.dir_match = true ∧ markerOk e mrule = true := by
  rw [scan] at ha
  rcases scanLoop_mem all_rules _ _ _ a ha with h | ⟨e, he, hd, hm⟩
  · simp at h
  · obtain ⟨mrule, hmem, hacc, hbs, _, hpath⟩ := try_match_accepts e all_rules a hm
    rw [accepts, Bool.and_eq_true] at hacc
    exact ⟨e, he, hd, hpath.symm, mrule, hmem, hbs, hacc.1, hacc.2⟩

theorem scan_requires_marker_witness :
    ∃ e : WEntry,
      some e ∈ walkList [] none (exampleCargoRoots.map FsTree.name) none exampleCargoRoots ∧
      e.is_dir = true ∧ e.path = exampleCargoArtifact.path ∧
      ∃ mrule ∈ all_rules, exampleCargoArtifact.build_system = mrule.rule.build_system ∧
        matches_dir e.dir_name mrule.dir_match = true ∧ markerOk e mrule = true :=
  scan_requires_marker exampleCargoRoots exampleCargoArtifact (by decide)

theorem FsTree.inductionOn {motive : FsTree → Prop}
    (hfile : ∀ n sz, motive (.file n sz))
    (hdir : ∀ n r es, (∀ t ∈ es, motive t) → motive (.dir n r es)) :
    ∀ t, motive t
  | .file n sz => hfile n sz
  | .dir n r es => hdir n r es (fun t _ht => FsTree.inductionOn hfile hdir t)
termination_by t => sizeOf t
decreasing_by
  have := List.sizeOf_lt_of_mem _ht
  simp only [FsTree.dir.sizeOf_spec]
  omega

theorem walkList_mem_iff (pp : List String) (pn : Option String) (pns : List String)
    (gns : Option (List String)) (es : List FsTree) (it : Option WEntry) :
    it ∈ walkList pp pn pns gns es ↔ ∃ t ∈ es, it ∈ walkTree pp pn pns gns t := by
  induction es with
  | nil => simp [walkList]
  | cons t ts ih =>
    rw [walkList]
    simp [List.mem_append, ih]

theorem walkTree_entry_path (t : FsTree) :
    ∀ (pp : List String) (pn : Option String) (pns : List String)
      (gns : Option (List String)) (it : Option WEntry) (e : WEntry),
      it ∈ walkTree pp pn pns gns t → it = some e → (pp ++ [t.name]) <+: e.path := by
  induction t using FsTree.inductionOn with
  | hfile n sz =>
    intro pp pn pns gns it e hit heq
    subst heq
    rw [walkTree] at hit
    have he := Option.some_inj.mp (List.mem_singleton.mp hit)
    rw [he]
    exact List.prefix_refl _
  | hdir n r es ih =>
    intro pp pn pns gns it e hit heq
    subst heq
    rw [walkTree] at hit
    by_cases hg : (n == ".git") = true
    · rw [if_pos hg] at hit
      cases hit
    · rw [if_neg hg] at hit
      rcases List.mem_cons.mp hit with h | h
      · have he := Option.some_inj.mp h
        rw [he]
        exact List.prefix_refl _
      · cases hr : r with
        | false =>
          rw [hr] at h
          simp at h
        | true =>
          rw [hr] at h
          rw [if_pos rfl] at h
          rcases (walkList_mem_iff _ _ _ _ _ _).mp h with ⟨u, hu, hwu⟩
          have hp := ih u hu (pp ++ [n]) (some n) (es.map FsTree.name) (some pns)
            (some e) e hwu rfl
          exact (List.prefix_append (pp ++ [n]) [u.name]).trans hp

theorem singleton_ext_incomparable {pp : List String} {n m : String} (hnm : ¬ n = m)
    {p : List String} (h₁ : (pp ++ [n]) <+: p) (h₂ : (pp ++ [m]) <+: p) : False := by
  have hpre := List.prefix_of_prefix_length_le h₁ h₂ (by simp)
  have heq := hpre.eq_of_length (by simp)
  have hs : [n] = [m] := List.append_inj_right heq rfl
  exact hnm (by simpa using hs)

theorem walkList_pairwise (es : List FsTree)
    (H : ∀ t ∈ es, ∀ (pp : List String) (pn : Option String) (pns : List String)
      (gns : Option (List String)), wfTree t = true →
      List.Pairwise entryNoLaterAncestor (walkTree pp pn pns gns t)) :
    ∀ (pp : List String) (pn : Option String) (pns : List String)
      (gns : Option (List String)), nodupNames (es.map FsTree.name) = true →
      wfForest es = true →
      List.Pairwise entryNoLaterAncestor (walkList pp pn pns gns es) := by
  induction es with
  | nil =>
    intro pp pn pns gns _ _
    rw [walkList]
    exact List.Pairwise.nil
  | cons t ts ih =>
    intro pp pn pns gns hnd hwf
    rw [walkList]
    rw [wfForest, Bool.and_eq_true] at hwf
    rw [List.map_cons, nodupNames, Bool.and_eq_true, Bool.not_eq_true'] at hnd
    apply List.pairwise_append.mpr
    refine ⟨H t (List.mem_cons_self _ _) pp pn pns gns hwf.1,
      ih (fun u hu => H u (List.mem_cons_of_mem _ hu)) pp pn pns gns hnd.2 hwf.2, ?_⟩
    intro x hx y hy ex ey hex hey
    subst hex hey
    have hpx := walkTree_entry_path t pp pn pns gns (some ex) ex hx rfl
    rcases (walkList_mem_iff _ _ _ _ _ _).mp hy with ⟨u, hu, hyu⟩
    have hpy := walkTree_entry_path u pp pn pns gns (some ey) ey hyu rfl
    intro hcon
    have hpy' : (pp ++ [u.name]) <+: ex.path := hpy.trans hcon
    have hne : ¬ t.name = u.name := by
      intro h'
      have hmem : t.name ∈ ts.map FsTree.name := h' ▸ List.mem_map_of_mem _ hu
      have hcont : (ts.map FsTree.name).contains t.name = true := by
        simp only [List.contains_iff_exists_mem_beq]
        exact ⟨t.name, hmem, by simp⟩
      rw [hnd.1] at hcont
      cases hcont
    exact singleton_ext_incomparable hne hpx hpy'

theorem walkTree_pairwise (t : FsTree) :
    ∀ (pp : List String) (pn : Option String) (pns : List String)
      (gns : Option (List String)), wfTree t = true →
      List.Pairwise entryNoLaterAncestor (walkTree pp pn pns gns t) := by
  induction t using FsTree.inductionOn with
  | hfile n sz =>
    intro pp pn pns gns _
    rw [walkTree]
    exact List.pairwise_singleton _ _
  | hdir n r es ih =>
    intro pp pn pns gns hwf
    rw [walkTree]
    by_cases hg : (n == ".git") = true
    · rw [if_pos hg]
      exact List.Pairwise.nil
    · rw [if_neg hg]
      rw [wfTree, Bool.and_eq_true] at hwf
      cases hr : r with
      | true =>
        rw [if_pos rfl]
        apply List.pairwise_cons.mpr
        constructor
        · intro y hy ex ey hex hey
          subst hey
          have hex' : ex.path = pp ++ [n] := by
            rw [← Option.some_inj.mp hex]
          rcases (walkList_mem_iff _ _ _ _ _ _).mp hy with ⟨u, hu, hyu⟩
          have hpy := walkTree_entry_path u (pp ++ [n]) (some n) (es.map FsTree.name)
            (some pns) (some ey) ey hyu rfl
          intro hcon
          have h1 := hpy.length_le
          have h2 := hcon.length_le
          rw [hex'] at h2
          simp at h1 h2
          omega
        · exact walkList_pairwise es (fun u hu pp' pn' pns' gns' hwf' =>
            ih u hu pp' pn' pns' gns' hwf') (pp ++ [n]) (some n) (es.map FsTree.name)
            (some pns) hwf.1 hwf.2
      | false =>
        rw [if_neg (by simp)]
        apply List.pairwise_cons.mpr
        refine ⟨?_, List.pairwise_singleton _ _⟩
        intro y hy ex ey hex hey
        have hyn : y = none := by simpa using hy
        rw [hyn] at hey
        cases hey

theorem scanLoop_pairwise (rules : List MatchableRule) :
    ∀ (items : List (Option WEntry)) (pruned : List (List String)) (acc : List Artifact),
      List.Pairwise entryNoLaterAncestor items →
      (∀ it ∈ items, ∀ e : WEntry, it = some e → ∀ p ∈ pruned, ¬ e.path <+: p) →
      List.Pairwise pathsIncomparable pruned →
      acc.map Artifact.path = pruned →
      List.Pairwise pathsIncomparable ((scanLoop rules items pruned acc).map Artifact.path) := by
  intro items
  induction items with
  | nil =>
    intro pruned acc h1 h2 h3 h4
    rw [scanLoop, h4]
    exact h3
  | cons it rest ih =>
    intro pruned acc h1 h2 h3 h4
    rw [List.pairwise_cons] at h1
    match it with
    | none =>
      rw [scanLoop]
      exact ih _ _ h1.2 (fun it' hit' => h2 it' (List.mem_cons_of_mem _ hit')) h3 h4
    | some e0 =>
      rw [scanLoop]
      cases hd0 : e0.is_dir with
      | false =>
        simp only [hd0, Bool.not_false, if_true]
        exact ih _ _ h1.2 (fun it' hit' => h2 it' (List.mem_cons_of_mem _ hit')) h3 h4
      | true =>
        simp only [hd0, Bool.not_true, Bool.false_eq_true, if_false]
        by_cases hpr : (pruned.any fun p => p.isPrefixOf e0.path) = true
        · rw [if_pos hpr]
          exact ih _ _ h1.2 (fun it' hit' => h2 it' (List.mem_cons_of_mem _ hit')) h3 h4
        · rw [if_neg hpr]
          cases htm : try_match e0 rules with
          | none =>
            exact ih _ _ h1.2 (fun it' hit' => h2 it' (List.mem_cons_of_mem _ hit')) h3 h4
          | some a =>
            have hpath : a.path = e0.path := by
              obtain ⟨l₁, m, l₂, _, _, _, rfl⟩ := try_match_first e0 rules a htm
              rfl
            have hprf : (pruned.any fun p => p.isPrefixOf e0.path) = false :=
              Bool.not_eq_true _ ▸ (by simpa using hpr)
            have hnp : ∀ p ∈ pruned, ¬ p <+: e0.path := by
              intro p hp hcon
              have := List.any_eq_false.mp hprf p hp
              exact this (List.isPrefixOf_iff_prefix.mpr hcon)
            have hnp2 : ∀ p ∈ pruned, ¬ e0.path <+: p :=
              h2 (some e0) (List.mem_cons_self _ _) e0 rfl
            apply ih
            · exact h1.2
            · intro it' hit' e' he' p hp
              rcases List.mem_append.mp hp with hpo | hpn
              · exact h2 it' (List.mem_cons_of_mem _ hit') e' he' p hpo
              · have hpe : p = e0.path := by simpa using hpn
                subst hpe
                exact h1.1 it' hit' e0 e' rfl he'
            · apply List.pairwise_append.mpr
              refine ⟨h3, List.pairwise_singleton _ _, ?_⟩
              intro p hp q hq
              have hqe : q = e0.path := by simpa using hq
              subst hqe
              exact ⟨hnp p hp, hnp2 p hp⟩
            · rw [List.map_append, h4]
              simp [hpath]

/-- C1: on every well-formed tree (distinct sibling names, as on a real
filesystem) the artifact list produced by `scan` is prefix-disjoint: no
reported path is an ancestor or descendant of (or equal to) another
reported path. -/
theorem scan_reports_disjoint (roots : List FsTree) (h : wfRoots roots = true) :
    List.Pairwise (fun a b : Artifact => ¬ a.path <+: b.path ∧ ¬ b.path <+: a.path)
      (scan roots) := by
  rw [wfRoots, Bool.and_eq_true] at h
  have hw := walkList_pairwise roots
    (fun t ht pp pn pns gns hwf => walkTree_pairwise t pp pn pns gns hwf)
    [] none (roots.map FsTree.name) none h.1 h.2
  have hmain := scanLoop_pairwise all_rules
    (walkList [] none (roots.map FsTree.name) none roots) [] []
    hw (by simp) List.Pairwise.nil rfl
  rw [scan]
  exact List.pairwise_map.mp hmain

theorem scan_reports_disjoint_witness :
    wfRoots exampleTwoProjectRoots = true ∧
    List.Pairwise (fun a b : Artifact => ¬ a.path <+: b.path ∧ ¬ b.path <+: a.path)
      (scan exampleTwoProjectRoots) :=
  ⟨by decide, scan_reports_disjoint exampleTwoProjectRoots (by decide)⟩


theorem splitSep_no_sep (sep : Char) (cs : List Char) (h : sep ∉ cs) :
    splitSep sep cs = [cs] := by
  induction cs with
  | nil => rfl
  | cons c cs ih =>
    rw [splitSep]
    rw [if_neg (by simp only [beq_iff_eq]; intro hc; exact h (hc ▸ List.mem_cons_self c cs))]
    rw [ih (fun hm => h (List.mem_cons_of_mem _ hm))]

theorem splitSep_append_sep (sep : Char) (xs ys : List Char) (h : sep ∉ xs) :
    splitSep sep (xs ++ sep :: ys) = xs :: splitSep sep ys := by
  induction xs with
  | nil =>
    rw [List.nil_append, splitSep, if_pos (by simp)]
  | cons c cs ih =>
    rw [List.cons_append, splitSep]
    rw [if_neg (by simp only [beq_iff_eq]; intro hc; exact h (hc ▸ List.mem_cons_self c cs))]
    rw [ih (fun hm => h (List.mem_cons_of_mem _ hm))]

theorem tokenize_bare_leaf (pat : String) (h : '/' ∉ pat.toList)
    (h2 : pat.toList ≠ ['*', '*']) :
    tokenize ("**/" ++ pat) = GTok.recStart :: compToks pat.toList := by
  rw [tokenize]
  have hsplit : ("**/" ++ pat).toList = ['*', '*'] ++ '/' :: pat.toList := by
    simp [String.toList, String.data_append]
  have hrec : isRecComp pat.toList = false := by
    rw [isRecComp]
    exact beq_eq_false_iff_ne.mpr h2
  rw [hsplit, splitSep_append_sep '/' ['*', '*'] pat.toList (by decide),
    splitSep_no_sep '/' pat.toList h]
  have h2' : pat.data ≠ ['*', '*'] := h2
  simp [tokTail, isRecComp, h2']

theorem tokenize_bare_ancestor (pat : String) (h : '/' ∉ pat.toList)
    (h2 : pat.toList ≠ ['*', '*']) :
    tokenize ("**/" ++ pat ++ "/**") =
      GTok.recStart :: (compToks pat.toList ++ [GTok.recEnd]) := by
  rw [tokenize]
  have hsplit : ("**/" ++ pat ++ "/**").toList =
      ['*', '*'] ++ '/' :: (pat.toList ++ '/' :: ['*', '*']) := by
    simp [String.toList, String.data_append]
  have hrec : isRecComp pat.toList = false := by
    rw [isRecComp]
    exact beq_eq_false_iff_ne.mpr h2
  rw [hsplit, splitSep_append_sep '/' ['*', '*'] _ (by decide),
    splitSep_append_sep '/' pat.toList ['*', '*'] h,
    splitSep_no_sep '/' ['*', '*'] (by decide)]
  have h2' : pat.data ≠ ['*', '*'] := h2
  simp [tokTail, tokTailSep, isRecComp, h2']

theorem gmatch_star_of (ts : List GTok) (cs : List Char) (h : gmatch ts cs = true) :
    gmatch (GTok.star :: ts) cs = true := by
  cases cs with
  | nil => rw [gmatch]; simp [h]
  | cons d ds => rw [gmatch]; simp [h]

theorem gmatch_star_consume (ts : List GTok) (d : Char) (ds : List Char)
    (h : gmatch (GTok.star :: ts) ds = true) :
    gmatch (GTok.star :: ts) (d :: ds) = true := by
  rw [gmatch]; simp [h]

theorem gmatch_recStart_zero (ts : List GTok) (cs : List Char) (h : gmatch ts cs = true) :
    gmatch (GTok.recStart :: ts) cs = true := by
  rw [gmatch]; simp [h]

theorem gmatch_recStart_seek (ts : List GTok) (cs : List Char)
    (h : gmatch (GTok.seek :: ts) cs = true) :
    gmatch (GTok.recStart :: ts) cs = true := by
  rw [gmatch]; simp [h]


theorem gmatch_append (ts₁ : List GTok) (cs₁ : List Char) (h₁ : gmatch ts₁ cs₁ = true)
    (ts₂ : List GTok) (cs₂ : List Char) (h₂ : gmatch ts₂ cs₂ = true) :
    gmatch (ts₁ ++ ts₂) (cs₁ ++ cs₂) = true := by
  induction ts₁, cs₁ using gmatch.induct with
  | case1 cs =>
    rw [gmatch, List.isEmpty_iff] at h₁
    subst h₁
    simpa using h₂
  | case2 c ts => rw [gmatch] at h₁; cases h₁
  | case3 c ts d ds ih =>
    rw [gmatch, Bool.and_eq_true] at h₁
    rw [List.cons_append, List.cons_append, gmatch]
    simp [h₁.1, ih h₁.2]
  | case4 ts => rw [gmatch] at h₁; cases h₁
  | case5 ts d ds ih =>
    rw [gmatch] at h₁
    rw [List.cons_append, List.cons_append, gmatch]
    simpa using ih h₁
  | case6 ts cs ih2 ih1 =>
    cases cs with
    | nil =>
      rw [gmatch] at h₁
      have hg : gmatch ts [] = true := by simpa using h₁
      have hr := ih2 hg
      rw [List.nil_append] at hr ⊢
      rw [List.cons_append]
      exact gmatch_star_of _ _ hr
    | cons d ds =>
      rw [gmatch, Bool.or_eq_true] at h₁
      rw [List.cons_append, List.cons_append]
      rcases h₁ with hg | hg
      · exact gmatch_star_of _ _ (by simpa using ih2 hg)
      · have hr := ih1 hg
        rw [List.cons_append] at hr
        exact gmatch_star_consume _ _ _ hr
  | case7 ts cs ih2 ih1 =>
    rw [gmatch, Bool.or_eq_true] at h₁
    rw [List.cons_append]
    rcases h₁ with hg | hg
    · exact gmatch_recStart_zero _ _ (ih2 hg)
    · have hr := ih1 hg
      rw [List.cons_append] at hr
      exact gmatch_recStart_seek _ _ hr
  | case8 ts => rw [gmatch] at h₁; cases h₁
  | case9 ts d ds ih2 ih1 =>
    rw [gmatch, Bool.or_eq_true] at h₁
    rw [List.cons_append, List.cons_append, gmatch]
    rcases h₁ with hg | hg
    · rw [Bool.and_eq_true] at hg
      simp [hg.1, ih2 hg.2]
    · have hr := ih1 hg
      rw [List.cons_append] at hr
      simp [hr]
  | case10 ts => rw [gmatch] at h₁; cases h₁
  | case11 ts d ds ih2 ih1 =>
    rw [gmatch, Bool.and_eq_true, Bool.or_eq_true] at h₁
    rw [List.cons_append, List.cons_append, gmatch]
    rcases h₁.2 with hg | hg
    · simp [h₁.1, ih2 hg]
    · have hr := ih1 hg
      rw [List.cons_append] at hr
      simp [h₁.1, hr]
  | case12 ts => rw [gmatch] at h₁; cases h₁
  | case13 ts d ds ih =>
    rw [gmatch, Bool.and_eq_true] at h₁
    rw [List.cons_append, List.cons_append, gmatch]
    have hr := ih h₁.2
    rw [List.cons_append] at hr
    simp [h₁.1, hr]

theorem gmatch_star_any (cs : List Char) : gmatch [GTok.star] cs = true := by
  induction cs with
  | nil => rw [gmatch]; simp [gmatch]
  | cons c cs ih => rw [gmatch]; simp [ih]

theorem gmatch_seek_reaches (ts : List GTok) (ys : List Char) (h : gmatch ts ys = true)
    (xs : List Char) : gmatch (GTok.seek :: ts) (xs ++ '/' :: ys) = true := by
  induction xs with
  | nil => rw [List.nil_append, gmatch]; simp [h]
  | cons x xs ih => rw [List.cons_append, gmatch]; simp [ih]

theorem gmatch_recStart_deep (ts : List GTok) (ys : List Char) (h : gmatch ts ys = true)
    (xs : List Char) : gmatch (GTok.recStart :: ts) (xs ++ '/' :: ys) = true :=
  gmatch_recStart_seek _ _ (gmatch_seek_reaches ts ys h xs)

theorem joinPath_sep_flat (q : List String) (hq : q ≠ []) :
    q.flatMap (fun t => '/' :: t.toList) = '/' :: joinPath q := by
  cases q with
  | nil => contradiction
  | cons t q' => rw [joinPath]; simp

theorem joinPath_append_ne (p q : List String) (hp : p ≠ []) (hq : q ≠ []) :
    joinPath (p ++ q) = joinPath p ++ '/' :: joinPath q := by
  cases p with
  | nil => contradiction
  | cons s p' =>
    rw [List.cons_append, joinPath, joinPath]
    rw [List.flatMap_append, joinPath_sep_flat q hq]
    simp


/-- C7: a bare pattern (no separator) is compiled so that it matches both as
a leaf path segment and as an ancestor segment anywhere in the tree, while a
pattern containing a separator is compiled verbatim as a single glob — so
`a/X` matches `a/X` but not `other/X`.  The universal part is stated for the
modelled glob fragment (no character classes, alternations or escapes, and
the pattern is not itself the recursive wildcard `**`). -/
theorem bare_and_separator_pattern_semantics :
    (∀ pat : String, '/' ∉ pat.toList → pat.toList ≠ ['*', '*'] →
      simpleChars pat.toList = true →
      ∀ (ss : List String) (x : String), gmatch (compToks pat.toList) x.toList = true →
        glob_set_match (build_glob_set [pat]) (ss ++ [x]) = true ∧
        ∀ ts : List String, ts ≠ [] →
          glob_set_match (build_glob_set [pat]) (ss ++ x :: ts) = true) ∧
    (∀ pat : String, '/' ∈ pat.toList → build_glob_set [pat] = [tokenize pat]) ∧
    glob_set_match (build_glob_set ["a/X"]) ["a", "X"] = true ∧
    glob_set_match (build_glob_set ["a/X"]) ["other", "X"] = false := by
  refine ⟨?_, ?_, ?_, ?_⟩
  · intro pat hsep hrec _hsimple ss x hx
    have hbare : build_glob_set [pat] =
        [tokenize ("**/" ++ pat), tokenize ("**/" ++ pat ++ "/**")] := by
      have hsep' : '/' ∉ pat.data := hsep
      rw [build_glob_set]
      simp [enhance_pattern, hsep']
    have hx1 : joinPath [x] = x.toList := by rw [joinPath]; simp
    constructor
    · rw [hbare, glob_set_match]
      apply List.any_eq_true.mpr
      refine ⟨tokenize ("**/" ++ pat), by simp, ?_⟩
      rw [tokenize_bare_leaf pat hsep hrec]
      cases ss with
      | nil =>
        rw [List.nil_append, hx1]
        exact gmatch_recStart_zero _ _ hx
      | cons s ss' =>
        rw [joinPath_append_ne (s :: ss') [x] (by simp) (by simp), hx1]
        exact gmatch_recStart_deep _ _ hx _
    · intro ts hts
      rw [hbare, glob_set_match]
      apply List.any_eq_true.mpr
      refine ⟨tokenize ("**/" ++ pat ++ "/**"), by simp, ?_⟩
      rw [tokenize_bare_ancestor pat hsep hrec]
      have hinner : gmatch (compToks pat.toList ++ [GTok.recEnd])
          (x.toList ++ '/' :: joinPath ts) = true := by
        apply gmatch_append _ _ hx
        rw [gmatch]
        simp [gmatch_star_any]
      have hxts : joinPath (x :: ts) = x.toList ++ '/' :: joinPath ts := by
        have h1 := joinPath_append_ne [x] ts (by simp) hts
        rw [List.singleton_append, hx1] at h1
        exact h1
      cases ss with
      | nil =>
        rw [List.nil_append, hxts]
        exact gmatch_recStart_zero _ _ hinner
      | cons s ss' =>
        rw [joinPath_append_ne (s :: ss') (x :: ts) (by simp) (by simp), hxts]
        exact gmatch_recStart_deep _ _ hinner _
  · intro pat hsep
    have hsep' : '/' ∈ pat.data := hsep
    rw [build_glob_set]
    simp [enhance_pattern, hsep']
  · simp [glob_set_match, build_glob_set, enhance_pattern, tokenize, splitSep, tokTail,
      tokTailSep, compToks, isRecComp, joinPath, gmatch]
  · simp [glob_set_match, build_glob_set, enhance_pattern, tokenize, splitSep, tokTail,
      tokTailSep, compToks, isRecComp, joinPath, gmatch]

theorem bare_and_separator_pattern_semantics_witness :
    glob_set_match (build_glob_set ["node_modules"]) (["app"] ++ ["node_modules"]) = true ∧
    glob_set_match (build_glob_set ["node_modules"])
      (["app"] ++ "node_modules" :: ["x"]) = true := by
  have h := bare_and_separator_pattern_semantics.1 "node_modules" (by decide) (by decide)
    (by decide) ["app"] "node_modules" (by simp [compToks, gmatch])
  exact ⟨h.1, h.2 ["x"] (by simp)⟩


theorem pruneUnreadable_name (t : FsTree) : (pruneUnreadable t).name = t.name := by
  cases t <;> rfl

theorem pruneForest_names (es : List FsTree) :
    (pruneForest es).map FsTree.name = es.map FsTree.name := by
  induction es with
  | nil => rfl
  | cons t ts ih =>
    rw [pruneForest, List.map_cons, List.map_cons, pruneUnreadable_name t, ih]

theorem walkList_prune (es : List FsTree)
    (H : ∀ t ∈ es, ∀ (pp : List String) (pn : Option String) (pns : List String)
      (gns : Option (List String)),
      walkTree pp pn pns gns (pruneUnreadable t) = walkTree pp pn pns gns t) :
    ∀ (pp : List String) (pn : Option String) (pns : List String)
      (gns : Option (List String)),
      walkList pp pn pns gns (pruneForest es) = walkList pp pn pns gns es := by
  induction es with
  | nil => intro pp pn pns gns; rfl
  | cons t ts ih =>
    intro pp pn pns gns
    rw [pruneForest, walkList, walkList, H t (List.mem_cons_self _ _),
      ih (fun u hu => H u (List.mem_cons_of_mem _ hu))]

theorem walkTree_prune (t : FsTree) :
    ∀ (pp : List String) (pn : Option String) (pns : List String)
      (gns : Option (List String)),
      walkTree pp pn pns gns (pruneUnreadable t) = walkTree pp pn pns gns t := by
  induction t using FsTree.inductionOn with
  | hfile n sz => intro pp pn pns gns; rfl
  | hdir n r es ih =>
    intro pp pn pns gns
    cases r with
    | false => rfl
    | true =>
      show walkTree pp pn pns gns (FsTree.dir n true (pruneForest es)) = _
      rw [walkTree, walkTree]
      by_cases hg : (n == ".git") = true
      · rw [if_pos hg, if_pos hg]
      · rw [if_neg hg, if_neg hg]
        simp only [if_true]
        rw [pruneForest_names, walkList_prune es ih]

theorem scan_prune (roots : List FsTree) : scan (pruneForest roots) = scan roots := by
  rw [scan, scan, pruneForest_names, walkList_prune roots (fun t _ => walkTree_prune t)]

theorem forestSize_prune (es : List FsTree)
    (H : ∀ t ∈ es, treeSize (pruneUnreadable t) = treeSize t) :
    forestSize (pruneForest es) = forestSize es := by
  induction es with
  | nil => rfl
  | cons t ts ih =>
    rw [pruneForest, forestSize, forestSize, H t (List.mem_cons_self _ _),
      ih (fun u hu => H u (List.mem_cons_of_mem _ hu))]

theorem treeSize_prune (t : FsTree) : treeSize (pruneUnreadable t) = treeSize t := by
  induction t using FsTree.inductionOn with
  | hfile n sz => rfl
  | hdir n r es ih =>
    cases r with
    | false => rfl
    | true =>
      show treeSize (FsTree.dir n true (pruneForest es)) = _
      rw [treeSize, treeSize]
      simp only [if_true]
      exact forestSize_prune es ih

theorem scanLoop_skips_errors (rules : List MatchableRule) :
    ∀ (items : List (Option WEntry)) (pruned : List (List String)) (acc : List Artifact),
      scanLoop rules (items.filter Option.isSome) pruned acc =
        scanLoop rules items pruned acc := by
  intro items
  induction items with
  | nil => intro pruned acc; rfl
  | cons it rest ih =>
    intro pruned acc
    match it with
    | none =>
      rw [List.filter_cons]
      simp only [Option.isSome_none, Bool.false_eq_true, if_false]
      rw [scanLoop]
      exact ih _ _
    | some e =>
      rw [List.filter_cons]
      simp only [Option.isSome_some, if_true]
      rw [scanLoop, scanLoop]
      cases hd0 : e.is_dir with
      | false =>
        simp only [hd0, Bool.not_false, if_true]
        exact ih _ _
      | true =>
        simp only [hd0, Bool.not_true, Bool.false_eq_true, if_false]
        by_cases hpr : (pruned.any fun p => p.isPrefixOf e.path) = true
        · rw [if_pos hpr, if_pos hpr]
          exact ih _ _
        · rw [if_neg hpr, if_neg hpr]
          cases htm : try_match e rules with
          | some a =>
            simp only [htm]
            exact ih _ _
          | none =>
            simp only [htm]
            exact ih _ _

/-- C9: the scanning and size passes are total functions of the observable
tree and treat filesystem errors as absences: error items in the walk
stream are skipped by the scanning loop exactly as if they were not there,
the hidden contents of unreadable directories never influence the scan
result, and an unreadable directory's subtree contributes zero bytes to the
size computation. -/
theorem scan_and_size_skip_unreadable :
    (∀ (rules : List MatchableRule) (items : List (Option WEntry))
      (pruned : List (List String)) (acc : List Artifact),
      scanLoop rules (items.filter Option.isSome) pruned acc =
        scanLoop rules items pruned acc) ∧
    (∀ roots : List FsTree, scan (pruneForest roots) = scan roots) ∧
    (∀ t : FsTree, treeSize (pruneUnreadable t) = treeSize t) ∧
    (∀ (n : String) (es : List FsTree), treeSize (FsTree.dir n false es) = 0) :=
  ⟨scanLoop_skips_errors, scan_prune, treeSize_prune, fun _ _ => rfl⟩

end CleanBuilds
